import Mathlib

/-!
Verification development for the polytrading streaming order-book engine.

Prices and sizes are embedded as rationals (`ℚ`); the Python code parses
them from strings/JSON numbers with `float(...)`.  Order-book sides are
lists of levels in insertion order, exactly as the Python lists
`BookMessage.buys` / `BookMessage.sells` are.  Dictionaries keyed by
instrument id are embedded as functions `String → Option _` or as
association lists, matching how the code uses them.
-/

namespace Polytrading

/-- One level of an order book, from `OrderSummary` in
`wsocket/wsocket_handlers.py` (`price`, `size` parsed with `float`). -/
structure OrderSummary where
  price : ℚ
  size : ℚ
deriving DecidableEq, Repr

/-- The matching tolerance `0.0001` hard-coded in
`BookMessage.update_price_change` and `get_size_for_price`. -/
def tol : ℚ := 1 / 10000

/-- The inner loop of `BookMessage.update_price_change` for one delta on
one side: scan the side in order, overwrite the size of the first level
whose price is within `tol` of the delta price (the stored price is kept),
and append a fresh level at the end if no level matches.  Note the size is
written unconditionally, also when it is `0`: the code has no removal
branch. -/
def upsert (orders : List OrderSummary) (p s : ℚ) : List OrderSummary :=
  match orders with
  | [] => [⟨p, s⟩]
  | o :: rest =>
    if |o.price - p| < tol then ⟨o.price, s⟩ :: rest
    else o :: upsert rest p s

/-- One entry of the `changes` array of a `price_change` event
(`price`, `size`, `side`), the side already lower-cased as the code does. -/
structure PriceChange where
  price : ℚ
  size : ℚ
  side : String
deriving DecidableEq, Repr

/-- The two sides of `BookMessage` that the book-maintenance claims are
about (`buys` and `sells` lists). -/
structure BookMessage where
  buys : List OrderSummary
  sells : List OrderSummary
deriving DecidableEq, Repr

/-- Applying one delta of a `price_change` event: `"sell"` deltas upsert
into `sells`, `"buy"` deltas into `buys`, anything else is ignored
(`update_price_change` has no other branch). -/
def applyChange (b : BookMessage) (c : PriceChange) : BookMessage :=
  if c.side = "sell" then { b with sells := upsert b.sells c.price c.size }
  else if c.side = "buy" then { b with buys := upsert b.buys c.price c.size }
  else b

/-- Embeds `BookMessage.update_price_change`: fold over the `changes` array in
order. -/
def update_price_change (b : BookMessage) (changes : List PriceChange) : BookMessage :=
  changes.foldl applyChange b

/-- Embeds `BookMessage._parse_order_summaries` on a well-formed level array:
one `OrderSummary` is appended per array element, in order.  There is no
de-duplication of equal prices. -/
def parse_order_summaries (data : List (ℚ × ℚ)) : List OrderSummary :=
  data.map (fun it => ⟨it.1, it.2⟩)

/-- Embeds `BookMessage.__init__` restricted to the two sides: a fresh book built
from the level arrays carried by a `book` event. -/
def mkBookMessage (buys sells : List (ℚ × ℚ)) : BookMessage :=
  ⟨parse_order_summaries buys, parse_order_summaries sells⟩

/-- Embeds `BookMessage.get_size_for_price`: the size of the first level on the
requested side whose price is within `tol` of the requested price. -/
def get_size_for_price (b : BookMessage) (side : String) (p : ℚ) : Option ℚ :=
  let orders := if side = "buy" then b.buys else b.sells
  (orders.find? (fun o => decide (|o.price - p| < tol))).map (·.size)

/-- One step of Python's `max(xs, key=...)`: replace the running best
only on a strictly greater key, so the first maximum is kept. -/
def maxStep (acc : Option OrderSummary) (o : OrderSummary) : Option OrderSummary :=
  match acc with
  | none => some o
  | some b => if b.price < o.price then some o else some b

/-- Python's `max(xs, key=lambda o: o.price)`: the first element attaining
the maximum price.  Used by `BookMessage.extract_best_buy`. -/
def maxByPrice (orders : List OrderSummary) : Option OrderSummary :=
  orders.foldl maxStep none

/-- One step of Python's `min(xs, key=...)`: replace the running best only
on a strictly smaller key, so the first minimum is kept. -/
def minStep (acc : Option OrderSummary) (o : OrderSummary) : Option OrderSummary :=
  match acc with
  | none => some o
  | some b => if o.price < b.price then some o else some b

/-- Python's `min(xs, key=lambda o: o.price)`: the first element attaining
the minimum price.  Used by `BookMessage.extract_best_sell`. -/
def minByPrice (orders : List OrderSummary) : Option OrderSummary :=
  orders.foldl minStep none

/-- Embeds `BookMessage.extract_best_buy`: `(None, 0)` on an empty side, else the
`(price, size)` of the level with maximal price.  `none` embeds the
`(None, 0)` return. -/
def extract_best_buy (b : BookMessage) : Option (ℚ × ℚ) :=
  (maxByPrice b.buys).map (fun o => (o.price, o.size))

/-- Embeds `BookMessage.extract_best_sell`: the `(price, size)` of the level with
minimal price, `none` on an empty side. -/
def extract_best_sell (b : BookMessage) : Option (ℚ × ℚ) :=
  (minByPrice b.sells).map (fun o => (o.price, o.size))

/-! ### Exact-price merge and claim-side denotations (for C2, C4, C6) -/

/-- Upsert keyed by exact price equality: overwrite the size of the first
level whose price equals `p`, append otherwise.  This is the canonical
merge the convergence claim compares against; under suitable price
separation it coincides with the tolerance-matching `upsert`. -/
def upsertExact (orders : List OrderSummary) (p s : ℚ) : List OrderSummary :=
  match orders with
  | [] => [⟨p, s⟩]
  | o :: rest =>
    if o.price = p then ⟨o.price, s⟩ :: rest
    else o :: upsertExact rest p s

/-- Applying one delta by exact-price merge. -/
def applyChangeExact (b : BookMessage) (c : PriceChange) : BookMessage :=
  if c.side = "sell" then { b with sells := upsertExact b.sells c.price c.size }
  else if c.side = "buy" then { b with buys := upsertExact b.buys c.price c.size }
  else b

/-- Folding a delta sequence by exact-price merge: each exact price ends
up carrying its last written size, zero sizes included. -/
def applyChangesExact (b : BookMessage) (changes : List PriceChange) : BookMessage :=
  changes.foldl applyChangeExact b

/-- A side as a plain level array `(price, size)`, for rebuilding a fresh
book from it. -/
def sideToLevels (orders : List OrderSummary) : List (ℚ × ℚ) :=
  orders.map (fun o => (o.price, o.size))

/-- Claim-side denotation for C2 (written from the claim, not from the
code): the final level set a delta sequence denotes starting from a book —
each exact price carrying its last written size, zero-size prices absent. -/
def finalLevelSetSpec (b : BookMessage) (changes : List PriceChange) : BookMessage :=
  let merged := applyChangesExact b changes
  ⟨merged.buys.filter (fun o => o.size ≠ 0),
   merged.sells.filter (fun o => o.size ≠ 0)⟩

/-- Claim-side denotation for C6 (written from the claim, not from the
code): build a side from a level array de-duplicating by price, last value
winning. -/
def dedupByPriceLastWins (data : List (ℚ × ℚ)) : List OrderSummary :=
  data.foldl (fun acc it => upsertExact acc it.1 it.2) []

/-- Claim-side denotation for C4 (written from the claim, not from the
code): the minimum price among ask levels whose size is strictly positive. -/
def minPositiveAskPriceSpec (b : BookMessage) : Option ℚ :=
  (minByPrice (b.sells.filter (fun o => 0 < o.size))).map (·.price)

/-- Claim-side denotation for C4, bid direction: the maximum price among
bid levels whose size is strictly positive. -/
def maxPositiveBidPriceSpec (b : BookMessage) : Option ℚ :=
  (maxByPrice (b.buys.filter (fun o => 0 < o.size))).map (·.price)

/-! ### Best-level selection with size tie-break (wsocket.py / wseocket.py) -/

/-- The replacement test of `MarketWSSClient.extract_best_level`: for asks
a candidate beats the running best when its price is lower, or equal with
a strictly greater size; for bids, when its price is higher, or equal with
a strictly greater size. -/
def beats (is_ask : Bool) (cand best : OrderSummary) : Prop :=
  if is_ask then
    cand.price < best.price ∨ (cand.price = best.price ∧ best.size < cand.size)
  else
    best.price < cand.price ∨ (cand.price = best.price ∧ best.size < cand.size)

instance (is_ask : Bool) (cand best : OrderSummary) : Decidable (beats is_ask cand best) := by
  unfold beats
  split <;> infer_instance

/-- One iteration of the `extract_best_level` loop: the first level seeds
the running best; a later level replaces it only when it strictly beats
it. -/
def bestStep (is_ask : Bool) (acc : Option OrderSummary) (lv : OrderSummary) :
    Option OrderSummary :=
  match acc with
  | none => some lv
  | some b => if beats is_ask lv b then some lv else some b

/-- Embeds `MarketWSSClient.extract_best_level` on a well-formed level array:
fold over the levels keeping the running best, replacing it only when the
candidate strictly beats it (so the earliest optimum is kept). -/
def extract_best_level (levels : List OrderSummary) (is_ask : Bool) : Option (ℚ × ℚ) :=
  (levels.foldl (bestStep is_ask) none).map (fun o => (o.price, o.size))

/-! ### The scanner cycle of `MarketWSSClient.investment_strategy_monitor`
(`wseocket.py`, threshold 1, default tick size `0.001`) -/

/-- The per-token slice of `token_data` that the scanner reads:
`best_sells[0]` and `best_sells_size[0]` (`none` embeds the empty string
`""` placeholder meaning no ask yet) and `new_tick_size`. -/
structure TokenData where
  best_sell_price : Option ℚ
  best_sell_size : Option ℚ
  new_tick_size : ℚ
deriving DecidableEq, Repr

/-- The store the scanner iterates: `token_data.items()` in insertion
order. -/
abbrev ScanStore := List (String × TokenData)

/-- The guard of the scanner loop body: a token contributes only when both
best-ask fields are present and the best-ask price is strictly greater
than the tick size; otherwise the loop `continue`s. -/
def scanGuard (d : TokenData) : Option (ℚ × ℚ) :=
  match d.best_sell_price, d.best_sell_size with
  | some p, some s => if p ≤ d.new_tick_size then none else some (p, s)
  | _, _ => none

/-- One order intent of a decision record, as persisted in
`order_log.json`: `{token_id, price, size, optimal_size}`. -/
structure DecisionOrder where
  token_id : String
  price : ℚ
  size : ℚ
  optimal_size : ℚ
deriving DecidableEq, Repr

/-- A decision record (one `wrapped_order` of `order_log.json`, minus the
uuid and timestamp, which the session model below supplies). -/
structure Decision where
  total_price : ℚ
  orders : List DecisionOrder
deriving DecidableEq, Repr

/-- One simulated order submission
(`OrderSender.send_order(token_id, order_size, order_price, weighted)`). -/
structure SentOrder where
  token_id : String
  order_size : ℚ
  order_price : ℚ
  weighted : Bool
deriving DecidableEq, Repr

/-- One iteration of the scanner loop body: append the candidate triple
when the guard passes, keep the accumulator unchanged on `continue`. -/
def scanStep (acc : List (String × ℚ × ℚ)) (e : String × TokenData) :
    List (String × ℚ × ℚ) :=
  match scanGuard e.2 with
  | none => acc
  | some (p, s) => acc ++ [(e.1, p, s)]

/-- The candidate-collection pass of the scanner loop: one
`(token_id, best price, best size)` triple appended per token that passes
the guard, in store order. -/
def scanCandidates (store : ScanStore) : List (String × ℚ × ℚ) :=
  store.foldl scanStep []

/-- Embeds `total_price`: the sum of best-ask prices over the collected
candidates (the sum over `standalone_prices`). -/
def total_price (store : ScanStore) : ℚ :=
  ((scanCandidates store).map (fun c => c.2.1)).sum

/-- Embeds `optimal_size`: `min(token_sizes)` when any candidate exists, else 0. -/
def optimal_size (store : ScanStore) : ℚ :=
  match ((scanCandidates store).map (fun c => c.2.2)).min? with
  | some m => m
  | none => 0

/-- One scanner cycle: emit a decision record exactly when
`total_price < 1 and orders` — aggregate strictly below the threshold 1
and at least one candidate — with every intent allocated the uniform
`optimal_size`. -/
def runCycle (store : ScanStore) : Option Decision :=
  let cands := scanCandidates store
  let total := total_price store
  let u := optimal_size store
  if total < 1 ∧ cands ≠ [] then
    some ⟨total, cands.map (fun c => ⟨c.1, c.2.1, c.2.2, u⟩)⟩
  else
    none

/-- The dispatch loop over an emitted decision: one simulated order per
intent, at the allocated size, flagged `weighted` exactly when the
original best-ask size differs from the allocated size. -/
def sentOrders (d : Decision) : List SentOrder :=
  d.orders.map (fun o => ⟨o.token_id, o.optimal_size, o.price, decide (o.size ≠ o.optimal_size)⟩)

/-! ### Decision log sessions (C7) -/

/-- The decision-log state across a session: the persisted `order_log`
list and the id supply.  `uuid.uuid4()` is embedded as a fresh-id counter:
each emitted record receives the next unused id. -/
structure SessionState where
  log : List (Nat × Decision)
  nextId : Nat
deriving DecidableEq, Repr

/-- One scanner cycle against the session log: when the cycle triggers,
the record is appended (`existing_orders.append(wrapped_order)`) with a
freshly generated id; otherwise the log is untouched. -/
def stepSession (st : SessionState) (store : ScanStore) : SessionState :=
  match runCycle store with
  | none => st
  | some d => ⟨st.log ++ [(st.nextId, d)], st.nextId + 1⟩

/-- A session: the stores the scanner observes on its successive cycles,
folded from the empty log. -/
def runSession (cycles : List ScanStore) : SessionState :=
  cycles.foldl stepSession ⟨[], 0⟩

/-! ### Book-event application to the store (C6,
`wsocket/wsocket.py handle_message`) -/

/-- Embeds `token_data` of `wsocket/wsocket.py`, keyed by asset id. -/
abbrev BookStore := String → Option BookMessage

/-- The `book` branch of `MarketWSSClient.handle_message`: a fresh
`BookMessage` is built from the event and assigned wholesale at
`token_data[asset_id]`. -/
def applyBookEvent (store : BookStore) (asset_id : String)
    (buys sells : List (ℚ × ℚ)) : BookStore :=
  fun k => if k = asset_id then some (mkBookMessage buys sells) else store k

/-! ### Connection and receive loop (C8, `BaseWSSClient`) -/

/-- The error taxonomy of the client: transport failures surface as
connection errors; decode failures as parse errors. -/
inductive WSErr where
  | connectionError (msg : String)
  | parseError (msg : String)
deriving DecidableEq, Repr

/-- A decoded inbound frame (the payload is irrelevant to the claims). -/
abbrev Frame := String

/-- Embeds `BaseWSSClient.connect`: attempt the handshake; on failure the
exception is logged and re-raised to the caller (`raise e`). -/
def connect (handshake : Except WSErr Unit) : Except WSErr Unit :=
  match handshake with
  | .ok _ => .ok ()
  | .error e => .error e

/-- Embeds `BaseWSSClient.listen`: the receive loop over the modeled inbound
stream.  Each iteration's body runs inside `try`: an error from
`recv`/decode is caught, logged and the loop `break`s; the loop itself
returns normally, so its result type records that no exception
propagates.  The returned list is the sequence of frames handed to
`handle_message`. -/
def listenLoop (stream : List (Except WSErr Frame)) : Except WSErr (List Frame) :=
  match stream with
  | [] => .ok []
  | .error _ :: _ => .ok []
  | .ok f :: rest =>
    match listenLoop rest with
    | .ok fs => .ok (f :: fs)
    | .error e => .error e

/-! ## Helper lemmas -/

/-- The matching tolerance is positive. -/
lemma tol_pos : 0 < tol := by norm_num [tol]

/-- An `upsert` with no level within tolerance appends the new level at the
end. -/
lemma upsert_of_no_match (orders : List OrderSummary) (p s : ℚ)
    (h : ∀ o ∈ orders, ¬ |o.price - p| < tol) :
    upsert orders p s = orders ++ [⟨p, s⟩] := by
  induction orders with
  | nil => rfl
  | cons o rest ih =>
    have ho : ¬ |o.price - p| < tol := h o (by simp)
    simp only [upsert, if_neg ho, List.cons_append, List.cons.injEq, true_and]
    exact ih (fun m hm => h m (by simp [hm]))

/-- An `upsert` overwrites the size of the first level within tolerance,
keeping its stored price and position; nothing else changes. -/
lemma upsert_of_first_match (pre post : List OrderSummary) (o : OrderSummary) (p s : ℚ)
    (hpre : ∀ m ∈ pre, ¬ |m.price - p| < tol) (ho : |o.price - p| < tol) :
    upsert (pre ++ o :: post) p s = pre ++ ⟨o.price, s⟩ :: post := by
  induction pre with
  | nil => simp [upsert, if_pos ho]
  | cons m rest ih =>
    have hm : ¬ |m.price - p| < tol := hpre m (by simp)
    simp only [List.cons_append, upsert, if_neg hm, List.cons.injEq, true_and]
    exact ih (fun x hx => hpre x (by simp [hx]))

/-- After an `upsert`, the side always holds a level within tolerance of
the written price, carrying the written size. -/
lemma upsert_mem_written (orders : List OrderSummary) (p s : ℚ) :
    ∃ o ∈ upsert orders p s, |o.price - p| < tol ∧ o.size = s := by
  induction orders with
  | nil =>
    refine ⟨⟨p, s⟩, by simp [upsert], ?_, rfl⟩
    simpa using tol_pos
  | cons o rest ih =>
    by_cases ho : |o.price - p| < tol
    · exact ⟨⟨o.price, s⟩, by simp [upsert, if_pos ho], ho, rfl⟩
    · obtain ⟨m, hm, hprop⟩ := ih
      exact ⟨m, by simp [upsert, if_neg ho, hm], hprop⟩

/-- Every price present after an `upsert` is the written price or a price
that was already present. -/
lemma upsert_price_mem (orders : List OrderSummary) (p s : ℚ) :
    ∀ o ∈ upsert orders p s, o.price = p ∨ ∃ m ∈ orders, o.price = m.price := by
  induction orders with
  | nil => simp [upsert]
  | cons o rest ih =>
    intro x hx
    by_cases ho : |o.price - p| < tol
    · simp only [upsert, if_pos ho, List.mem_cons] at hx
      rcases hx with hx | hx
      · subst hx; exact Or.inr ⟨o, by simp, rfl⟩
      · exact Or.inr ⟨x, by simp [hx], rfl⟩
    · simp only [upsert, if_neg ho, List.mem_cons] at hx
      rcases hx with hx | hx
      · subst hx; exact Or.inr ⟨x, by simp, rfl⟩
      · rcases ih x hx with h | ⟨m, hm, h⟩
        · exact Or.inl h
        · exact Or.inr ⟨m, by simp [hm], h⟩

/-- Every price present after an exact-keyed upsert is the written price
or a price that was already present. -/
lemma upsertExact_price_mem (orders : List OrderSummary) (p s : ℚ) :
    ∀ o ∈ upsertExact orders p s, o.price = p ∨ ∃ m ∈ orders, o.price = m.price := by
  induction orders with
  | nil => simp [upsertExact]
  | cons o rest ih =>
    intro x hx
    by_cases ho : o.price = p
    · simp only [upsertExact, if_pos ho, List.mem_cons] at hx
      rcases hx with hx | hx
      · subst hx; exact Or.inr ⟨o, by simp, rfl⟩
      · exact Or.inr ⟨x, by simp [hx], rfl⟩
    · simp only [upsertExact, if_neg ho, List.mem_cons] at hx
      rcases hx with hx | hx
      · subst hx; exact Or.inr ⟨x, by simp, rfl⟩
      · rcases ih x hx with h | ⟨m, hm, h⟩
        · exact Or.inl h
        · exact Or.inr ⟨m, by simp [hm], h⟩

/-- Price separation: two prices are either equal or at least the
tolerance apart, so tolerance matching and exact matching agree on them. -/
def Sep (p q : ℚ) : Prop := p = q ∨ tol ≤ |p - q|

lemma Sep.symm {p q : ℚ} (h : Sep p q) : Sep q p := by
  rcases h with h | h
  · exact Or.inl h.symm
  · exact Or.inr (by rwa [abs_sub_comm])

/-- Under separation, matching within tolerance is exactly price
equality. -/
lemma sep_match_iff {q p : ℚ} (h : Sep q p) : |q - p| < tol ↔ q = p := by
  constructor
  · intro hlt
    rcases h with h | h
    · exact h
    · exact absurd hlt (not_lt.mpr h)
  · intro h
    rw [h]
    simpa using tol_pos

/-- Under separation of the delta price from every stored price,
tolerance-keyed and exact-keyed upsert coincide. -/
lemma upsert_eq_upsertExact (orders : List OrderSummary) (p s : ℚ)
    (h : ∀ o ∈ orders, Sep o.price p) :
    upsert orders p s = upsertExact orders p s := by
  induction orders with
  | nil => rfl
  | cons o rest ih =>
    have ho := sep_match_iff (h o (by simp))
    by_cases heq : o.price = p
    · simp [upsert, upsertExact, if_pos (ho.mpr heq), if_pos heq]
    · have : ¬ |o.price - p| < tol := fun hc => heq (ho.mp hc)
      simp only [upsert, upsertExact, if_neg this, if_neg heq, List.cons.injEq, true_and]
      exact ih (fun m hm => h m (by simp [hm]))

/-- The relation `beats` is irreflexive. -/
lemma beats_irrefl (ia : Bool) (a : OrderSummary) : ¬ beats ia a a := by
  cases ia <;> simp [beats]

/-- The relation `beats` is transitive. -/
lemma beats_trans {ia : Bool} {a b c : OrderSummary}
    (hab : beats ia a b) (hbc : beats ia b c) : beats ia a c := by
  cases ia <;> simp only [beats, if_true, if_false, Bool.false_eq_true, ite_true, ite_false] at * <;>
    rcases hab with h | ⟨h1, h2⟩ <;> rcases hbc with g | ⟨g1, g2⟩ <;>
      first
        | exact Or.inl (by linarith)
        | exact Or.inr ⟨by linarith, by linarith⟩

/-- The relation `beats` is asymmetric. -/
lemma beats_asymm {ia : Bool} {a b : OrderSummary} (hab : beats ia a b) :
    ¬ beats ia b a := by
  intro hba
  exact beats_irrefl ia a (beats_trans hab hba)

/-- The key cross lemma of the strict weak order: whatever fails to beat
`b` is beaten by whatever beats `b`. -/
lemma beats_cross {ia : Bool} {x b c : OrderSummary}
    (hx : ¬ beats ia x b) (hc : beats ia c b) : beats ia c x := by
  cases ia <;>
    simp only [beats, if_true, if_false, Bool.false_eq_true, ite_true, ite_false,
      not_or, not_and, not_lt] at * <;>
    obtain ⟨hx1, hx2⟩ := hx <;> rcases hc with h | ⟨h1, h2⟩ <;>
      rcases lt_or_eq_of_le hx1 with hbx | hbx
  · exact Or.inl (by linarith)
  · exact Or.inl (by linarith)
  · exact Or.inl (by linarith)
  · exact Or.inr ⟨by linarith, by linarith [hx2 hbx]⟩
  · exact Or.inl (by linarith)
  · exact Or.inl (by linarith)
  · exact Or.inl (by linarith)
  · exact Or.inr ⟨by linarith, by linarith [hx2 hbx.symm]⟩

/-- Characterization of the `extract_best_level` fold from a seeded
accumulator: the result either is the seed, which nothing in the list
beats, or is a list element that beats the seed, strictly beats everything
before it and is beaten by nothing after it. -/
lemma bestFold_spec (ia : Bool) :
    ∀ (l : List OrderSummary) (b : OrderSummary),
      ∃ c, l.foldl (bestStep ia) (some b) = some c ∧
        ((c = b ∧ ∀ m ∈ l, ¬ beats ia m b) ∨
         (∃ pre post, l = pre ++ c :: post ∧ beats ia c b ∧
            (∀ m ∈ pre, beats ia c m) ∧ (∀ m ∈ post, ¬ beats ia m c))) := by
  intro l
  induction l with
  | nil => exact fun b => ⟨b, rfl, Or.inl ⟨rfl, by simp⟩⟩
  | cons x rest ih =>
    intro b
    by_cases hx : beats ia x b
    · have hstep : (x :: rest).foldl (bestStep ia) (some b) = rest.foldl (bestStep ia) (some x) := by
        simp [List.foldl_cons, bestStep, if_pos hx]
      obtain ⟨c, hc, hcase⟩ := ih x
      refine ⟨c, by rw [hstep]; exact hc, Or.inr ?_⟩
      rcases hcase with ⟨rfl, hall⟩ | ⟨pre, post, hsplit, hcx, hpre, hpost⟩
      · exact ⟨[], rest, rfl, hx, by simp, hall⟩
      · refine ⟨x :: pre, post, by simp [hsplit], beats_trans hcx hx, ?_, hpost⟩
        intro m hm
        rcases List.mem_cons.mp hm with rfl | hm
        · exact hcx
        · exact hpre m hm
    · have hstep : (x :: rest).foldl (bestStep ia) (some b) = rest.foldl (bestStep ia) (some b) := by
        simp [List.foldl_cons, bestStep, if_neg hx]
      obtain ⟨c, hc, hcase⟩ := ih b
      refine ⟨c, by rw [hstep]; exact hc, ?_⟩
      rcases hcase with ⟨rfl, hall⟩ | ⟨pre, post, hsplit, hcb, hpre, hpost⟩
      · refine Or.inl ⟨rfl, ?_⟩
        intro m hm
        rcases List.mem_cons.mp hm with rfl | hm
        · exact hx
        · exact hall m hm
      · refine Or.inr ⟨x :: pre, post, by simp [hsplit], hcb, ?_, hpost⟩
        intro m hm
        rcases List.mem_cons.mp hm with rfl | hm
        · exact beats_cross hx hcb
        · exact hpre m hm

/-- The seeded `min`-by-price fold returns an element (or the seed) whose
price is a lower bound for the seed's and every listed price; the bound
also names the first minimum through the strictness of the replacement
test, which the C4 claims do not need. -/
lemma minFold_spec :
    ∀ (l : List OrderSummary) (b : OrderSummary),
      ∃ c, l.foldl minStep (some b) = some c ∧ (c = b ∨ c ∈ l) ∧
        c.price ≤ b.price ∧ ∀ m ∈ l, c.price ≤ m.price := by
  intro l
  induction l with
  | nil => exact fun b => ⟨b, rfl, Or.inl rfl, le_refl _, by simp⟩
  | cons x rest ih =>
    intro b
    by_cases hx : x.price < b.price
    · obtain ⟨c, hc, hmem, hcb, hall⟩ := ih x
      refine ⟨c, by simpa [List.foldl_cons, minStep, if_pos hx] using hc, ?_, by linarith, ?_⟩
      · rcases hmem with rfl | hmem
        · exact Or.inr (by simp)
        · exact Or.inr (by simp [hmem])
      · intro m hm
        rcases List.mem_cons.mp hm with rfl | hm
        · exact hcb
        · exact hall m hm
    · obtain ⟨c, hc, hmem, hcb, hall⟩ := ih b
      refine ⟨c, by simpa [List.foldl_cons, minStep, if_neg hx] using hc, ?_, hcb, ?_⟩
      · rcases hmem with rfl | hmem
        · exact Or.inl rfl
        · exact Or.inr (by simp [hmem])
      · intro m hm
        rcases List.mem_cons.mp hm with rfl | hm
        · push_neg at hx
          linarith
        · exact hall m hm

/-- Mirror of `minFold_spec` for the `max`-by-price fold. -/
lemma maxFold_spec :
    ∀ (l : List OrderSummary) (b : OrderSummary),
      ∃ c, l.foldl maxStep (some b) = some c ∧ (c = b ∨ c ∈ l) ∧
        b.price ≤ c.price ∧ ∀ m ∈ l, m.price ≤ c.price := by
  intro l
  induction l with
  | nil => exact fun b => ⟨b, rfl, Or.inl rfl, le_refl _, by simp⟩
  | cons x rest ih =>
    intro b
    by_cases hx : b.price < x.price
    · obtain ⟨c, hc, hmem, hcb, hall⟩ := ih x
      refine ⟨c, by simpa [List.foldl_cons, maxStep, if_pos hx] using hc, ?_, by linarith, ?_⟩
      · rcases hmem with rfl | hmem
        · exact Or.inr (by simp)
        · exact Or.inr (by simp [hmem])
      · intro m hm
        rcases List.mem_cons.mp hm with rfl | hm
        · exact hcb
        · exact hall m hm
    · obtain ⟨c, hc, hmem, hcb, hall⟩ := ih b
      refine ⟨c, by simpa [List.foldl_cons, maxStep, if_neg hx] using hc, ?_, hcb, ?_⟩
      · rcases hmem with rfl | hmem
        · exact Or.inl rfl
        · exact Or.inr (by simp [hmem])
      · intro m hm
        rcases List.mem_cons.mp hm with rfl | hm
        · push_neg at hx
          linarith
        · exact hall m hm

/-- Reading `minByPrice` on a nonempty side returns a member of minimal price. -/
lemma minByPrice_spec (orders : List OrderSummary) (h : orders ≠ []) :
    ∃ c ∈ orders, minByPrice orders = some c ∧ ∀ m ∈ orders, c.price ≤ m.price := by
  match orders, h with
  | x :: rest, _ =>
    obtain ⟨c, hc, hmem, hcb, hall⟩ := minFold_spec rest x
    refine ⟨c, ?_, ?_, ?_⟩
    · rcases hmem with rfl | hmem
      · simp
      · simp [hmem]
    · simpa [minByPrice, List.foldl_cons, minStep] using hc
    · intro m hm
      rcases List.mem_cons.mp hm with rfl | hm
      · exact hcb
      · exact hall m hm

/-- Reading `maxByPrice` on a nonempty side returns a member of maximal price. -/
lemma maxByPrice_spec (orders : List OrderSummary) (h : orders ≠ []) :
    ∃ c ∈ orders, maxByPrice orders = some c ∧ ∀ m ∈ orders, m.price ≤ c.price := by
  match orders, h with
  | x :: rest, _ =>
    obtain ⟨c, hc, hmem, hcb, hall⟩ := maxFold_spec rest x
    refine ⟨c, ?_, ?_, ?_⟩
    · rcases hmem with rfl | hmem
      · simp
      · simp [hmem]
    · simpa [maxByPrice, List.foldl_cons, maxStep] using hc
    · intro m hm
      rcases List.mem_cons.mp hm with rfl | hm
      · exact hcb
      · exact hall m hm

/-- Parsing a side back from its level array reproduces the side. -/
lemma parse_sideToLevels (orders : List OrderSummary) :
    parse_order_summaries (sideToLevels orders) = orders := by
  induction orders with
  | nil => rfl
  | cons o rest ih => simp [parse_order_summaries, sideToLevels] at ih ⊢; exact ih

/-- Rebuilding a fresh book from a book's own level arrays reproduces the
book. -/
lemma mkBookMessage_sideToLevels (b : BookMessage) :
    mkBookMessage (sideToLevels b.buys) (sideToLevels b.sells) = b := by
  cases b
  simp [mkBookMessage, parse_sideToLevels]

/-- Under pairwise separation of all prices involved — the initial levels
of the touched sides and the delta prices — the tolerance-matching delta
merge coincides with the exact-keyed merge. -/
lemma update_price_change_eq_exact :
    ∀ (changes : List PriceChange) (b : BookMessage),
      (∀ o ∈ b.sells, ∀ c ∈ changes, c.side = "sell" → Sep o.price c.price) →
      (∀ c ∈ changes, ∀ c' ∈ changes, c.side = "sell" → c'.side = "sell" → Sep c.price c'.price) →
      (∀ o ∈ b.buys, ∀ c ∈ changes, c.side = "buy" → Sep o.price c.price) →
      (∀ c ∈ changes, ∀ c' ∈ changes, c.side = "buy" → c'.side = "buy" → Sep c.price c'.price) →
      update_price_change b changes = applyChangesExact b changes := by
  intro changes
  induction changes with
  | nil => intro b _ _ _ _; rfl
  | cons c rest ih =>
    intro b h1s h2s h1b h2b
    have hhead : applyChange b c = applyChangeExact b c := by
      by_cases hsell : c.side = "sell"
      · have := upsert_eq_upsertExact b.sells c.price c.size
          (fun o ho => h1s o ho c (by simp) hsell)
        simp [applyChange, applyChangeExact, hsell, this]
      · by_cases hbuy : c.side = "buy"
        · have := upsert_eq_upsertExact b.buys c.price c.size
            (fun o ho => h1b o ho c (by simp) hbuy)
          simp [applyChange, applyChangeExact, hsell, hbuy, this]
        · simp [applyChange, applyChangeExact, hsell, hbuy]
    have hsells : (applyChangeExact b c).sells = b.sells ∨
        (c.side = "sell" ∧ (applyChangeExact b c).sells = upsertExact b.sells c.price c.size) := by
      by_cases hsell : c.side = "sell"
      · exact Or.inr ⟨hsell, by simp [applyChangeExact, hsell]⟩
      · by_cases hbuy : c.side = "buy"
        · exact Or.inl (by simp [applyChangeExact, hsell, hbuy])
        · exact Or.inl (by simp [applyChangeExact, hsell, hbuy])
    have hbuys : (applyChangeExact b c).buys = b.buys ∨
        (c.side = "buy" ∧ (applyChangeExact b c).buys = upsertExact b.buys c.price c.size) := by
      by_cases hsell : c.side = "sell"
      · exact Or.inl (by simp [applyChangeExact, hsell])
      · by_cases hbuy : c.side = "buy"
        · exact Or.inr ⟨hbuy, by simp [applyChangeExact, hsell, hbuy]⟩
        · exact Or.inl (by simp [applyChangeExact, hsell, hbuy])
    have h1s' : ∀ o ∈ (applyChangeExact b c).sells, ∀ c' ∈ rest, c'.side = "sell" →
        Sep o.price c'.price := by
      intro o ho c' hc' hside
      rcases hsells with h | ⟨hcside, h⟩
      · exact h1s o (h ▸ ho) c' (by simp [hc']) hside
      · rw [h] at ho
        rcases upsertExact_price_mem b.sells c.price c.size o ho with hp | ⟨m, hm, hp⟩
        · rw [hp]
          exact h2s c (by simp) c' (by simp [hc']) hcside hside
        · rw [hp]
          exact h1s m hm c' (by simp [hc']) hside
    have h1b' : ∀ o ∈ (applyChangeExact b c).buys, ∀ c' ∈ rest, c'.side = "buy" →
        Sep o.price c'.price := by
      intro o ho c' hc' hside
      rcases hbuys with h | ⟨hcside, h⟩
      · exact h1b o (h ▸ ho) c' (by simp [hc']) hside
      · rw [h] at ho
        rcases upsertExact_price_mem b.buys c.price c.size o ho with hp | ⟨m, hm, hp⟩
        · rw [hp]
          exact h2b c (by simp) c' (by simp [hc']) hcside hside
        · rw [hp]
          exact h1b m hm c' (by simp [hc']) hside
    calc update_price_change b (c :: rest)
        = update_price_change (applyChange b c) rest := by
          simp [update_price_change]
      _ = update_price_change (applyChangeExact b c) rest := by rw [hhead]
      _ = applyChangesExact (applyChangeExact b c) rest := by
          exact ih (applyChangeExact b c) h1s'
            (fun a ha a' ha' u u' => h2s a (by simp [ha]) a' (by simp [ha']) u u')
            h1b'
            (fun a ha a' ha' u u' => h2b a (by simp [ha]) a' (by simp [ha']) u u')
      _ = applyChangesExact b (c :: rest) := by simp [applyChangesExact]

/-- The scanner candidate fold splits off its accumulator. -/
lemma scanFold_acc (l : ScanStore) :
    ∀ acc : List (String × ℚ × ℚ), l.foldl scanStep acc = acc ++ l.foldl scanStep [] := by
  induction l with
  | nil => simp
  | cons e rest ih =>
    intro acc
    have hstep : ∀ a : List (String × ℚ × ℚ), scanStep a e = a ++ scanStep [] e := by
      intro a
      cases h : scanGuard e.2 with
      | none => simp [scanStep, h]
      | some v => simp [scanStep, h]
    calc (e :: rest).foldl scanStep acc
        = rest.foldl scanStep (scanStep acc e) := by simp
      _ = scanStep acc e ++ rest.foldl scanStep [] := ih _
      _ = (acc ++ scanStep [] e) ++ rest.foldl scanStep [] := by rw [hstep]
      _ = acc ++ (scanStep [] e ++ rest.foldl scanStep []) := by simp
      _ = acc ++ rest.foldl scanStep (scanStep [] e) := by rw [← ih]
      _ = acc ++ (e :: rest).foldl scanStep [] := by simp

/-- Removing an entry that fails the scanner guard does not change the
collected candidates. -/
lemma scanCandidates_skip (pre post : ScanStore) (e : String × TokenData)
    (h : scanGuard e.2 = none) :
    scanCandidates (pre ++ e :: post) = scanCandidates (pre ++ post) := by
  simp only [scanCandidates, List.foldl_append, List.foldl_cons, scanStep, h]

/-- Every collected candidate's token id is the id of some store entry. -/
lemma scanCandidates_token_mem (store : ScanStore) :
    ∀ c ∈ scanCandidates store, c.1 ∈ store.map Prod.fst := by
  induction store with
  | nil => simp [scanCandidates]
  | cons e rest ih =>
    intro c hc
    simp only [scanCandidates, List.foldl_cons] at hc
    rw [scanFold_acc] at hc
    rcases List.mem_append.mp hc with hc | hc
    · cases h : scanGuard e.2 with
      | none => simp [scanStep, h] at hc
      | some v =>
        simp only [scanStep, h] at hc
        rcases v with ⟨p, s⟩
        simp only [List.nil_append, List.mem_singleton] at hc
        subst hc
        simp
    · have := ih c hc
      simp [this]

/-- The decision-log fold: starting from any session state, the log grows
by exactly the decisions of the triggering cycles, in order, tagged with
consecutive fresh ids. -/
lemma foldl_stepSession (cycles : List ScanStore) :
    ∀ st : SessionState,
      (cycles.foldl stepSession st).log =
        st.log ++ (List.range' st.nextId (cycles.filterMap runCycle).length).zip
          (cycles.filterMap runCycle) ∧
      (cycles.foldl stepSession st).nextId =
        st.nextId + (cycles.filterMap runCycle).length := by
  induction cycles with
  | nil => intro st; simp
  | cons store rest ih =>
    intro st
    cases h : runCycle store with
    | none =>
      have hstep : stepSession st store = st := by simp [stepSession, h]
      have hfm : (store :: rest).filterMap runCycle = rest.filterMap runCycle := by
        simp [List.filterMap_cons, h]
      simpa [List.foldl_cons, hstep, hfm] using ih st
    | some d =>
      have hstep : stepSession st store = ⟨st.log ++ [(st.nextId, d)], st.nextId + 1⟩ := by
        simp [stepSession, h]
      have hfm : (store :: rest).filterMap runCycle = d :: rest.filterMap runCycle := by
        simp [List.filterMap_cons, h]
      obtain ⟨ihlog, ihid⟩ := ih ⟨st.log ++ [(st.nextId, d)], st.nextId + 1⟩
      constructor
      · rw [List.foldl_cons, hstep, ihlog]
        simp only [hfm, List.length_cons, List.range'_succ]
        simp [List.zip]
      · rw [List.foldl_cons, hstep, ihid]
        simp [hfm]
        omega

/-- Reading back the level array of a freshly parsed side reproduces the
array: parsing is verbatim, one level per element. -/
lemma sideToLevels_parse (data : List (ℚ × ℚ)) :
    sideToLevels (parse_order_summaries data) = data := by
  induction data with
  | nil => rfl
  | cons it rest ih => simp [parse_order_summaries, sideToLevels] at ih ⊢; exact ih

/-- Every order intent of an emitted decision names a token of the
scanned store. -/
lemma runCycle_token_mem (store : ScanStore) (dec : Decision)
    (h : runCycle store = some dec) :
    ∀ o ∈ dec.orders, o.token_id ∈ store.map Prod.fst := by
  intro o ho
  unfold runCycle at h
  simp only [] at h
  split at h
  · rcases Option.some.inj h with rfl
    simp only [List.mem_map] at ho
    obtain ⟨c, hc, rfl⟩ := ho
    exact scanCandidates_token_mem store c hc
  · exact absurd h (by simp)

/-- The number of kept results of a `filterMap` is the number of inputs on
which the function fires. -/
lemma filterMap_length_countP {α β : Type} (f : α → Option β) (l : List α) :
    (l.filterMap f).length = l.countP (fun a => (f a).isSome) := by
  induction l with
  | nil => rfl
  | cons a rest ih =>
    cases h : f a with
    | none => simp [List.filterMap_cons, h, List.countP_cons, ih]
    | some b => simp [List.filterMap_cons, h, List.countP_cons, ih]

/-- The receive loop returns normally on every modeled inbound stream: all
errors are caught inside the loop body. -/
lemma listenLoop_ok : ∀ stream, ∃ frames, listenLoop stream = Except.ok frames := by
  intro stream
  induction stream with
  | nil => exact ⟨[], rfl⟩
  | cons x rest ih =>
    cases x with
    | error e => exact ⟨[], rfl⟩
    | ok f =>
      obtain ⟨fs, h⟩ := ih
      exact ⟨f :: fs, by simp [listenLoop, h]⟩

/-- The receive loop hands over exactly the frames preceding the first
transport error, then stops without raising. -/
lemma listenLoop_stops_at_error (good : List Frame) (e : WSErr)
    (rest : List (Except WSErr Frame)) :
    listenLoop (good.map Except.ok ++ Except.error e :: rest) = Except.ok good := by
  induction good with
  | nil => rfl
  | cons f fs ih => simp [listenLoop, ih]

/-! ## Claim theorems -/

/-- The C1 store: instrument A with best ask `0.40` at size `100`,
instrument B with best ask `0.55` at size `50`, both with the default tick
size `0.001` of `wseocket.py`. -/
def storeC1 : ScanStore :=
  [("A", ⟨some (2/5), some 100, 1/1000⟩), ("B", ⟨some (11/20), some 50, 1/1000⟩)]

/-- The decision record C1 predicts for `storeC1`. -/
def decisionC1 : Decision :=
  ⟨19/20, [⟨"A", 2/5, 100, 50⟩, ⟨"B", 11/20, 50, 50⟩]⟩

/-- C1: over a store holding exactly the two qualifying instruments A
(ask 0.40, size 100) and B (ask 0.55, size 50) with threshold 1, the
scanner cycle emits exactly one decision record with exactly two order
intents, both allocated the optimal size `50 = min(100, 50)`; the
dispatched order for A is flagged weighted (original size 100 ≠ 50) and
the one for B is not. -/
theorem scanner_cycle_two_instruments_c1 :
    runCycle storeC1 = some decisionC1 ∧
    decisionC1.orders.length = 2 ∧
    sentOrders decisionC1 =
      [⟨"A", 50, 2/5, true⟩, ⟨"B", 50, 11/20, false⟩] := by
  refine ⟨?_, rfl, ?_⟩
  · norm_num [runCycle, scanCandidates, scanStep, total_price,
      optimal_size, scanGuard, storeC1, decisionC1]
    exact fun h => absurd h (List.cons_ne_nil _ _)
  · norm_num [sentOrders, decisionC1]

/-- The one-level sell book used to refute C3's removal claim. -/
def bookC3 : BookMessage := ⟨[], [⟨1/2, 5⟩]⟩

/-- C3 counterexample: applying a `price_change` delta with size 0 at
price `0.5` to a book whose sell side is `[(0.5, 5)]` leaves a level at
price `0.5` (with size 0) on the side — the side does NOT end up with no
level at that price, contrary to the claim. -/
theorem size_zero_removal_counterexample :
    (update_price_change bookC3 [⟨1/2, 0, "sell"⟩]).sells = [⟨1/2, 0⟩] ∧
    ∃ o ∈ (update_price_change bookC3 [⟨1/2, 0, "sell"⟩]).sells, o.price = 1/2 := by
  have h : (update_price_change bookC3 [⟨1/2, 0, "sell"⟩]).sells = [⟨1/2, 0⟩] := by
    norm_num [update_price_change, applyChange, upsert, tol, bookC3]
  exact ⟨h, ⟨1/2, 0⟩, by rw [h]; exact List.mem_singleton.mpr rfl, rfl⟩

/-- C3 amended: a size-0 delta at price `p` does not remove the level; it
writes size 0 into the first level within `0.0001` of `p` (appending a
`(p, 0)` level if none matches), so the side afterwards holds a level at
(within tolerance of) `p` with size 0; a later delta with nonzero size `s`
at `p` overwrites that matching level's size to `s`.  Both sides behave
alike. -/
theorem size_zero_then_restore_amended (b : BookMessage) (p s : ℚ) (hs : s ≠ 0) :
    (∃ o ∈ (update_price_change b [⟨p, 0, "sell"⟩]).sells,
        |o.price - p| < tol ∧ o.size = 0) ∧
    (∃ o ∈ (update_price_change (update_price_change b [⟨p, 0, "sell"⟩])
        [⟨p, s, "sell"⟩]).sells, |o.price - p| < tol ∧ o.size = s) ∧
    (∃ o ∈ (update_price_change b [⟨p, 0, "buy"⟩]).buys,
        |o.price - p| < tol ∧ o.size = 0) ∧
    (∃ o ∈ (update_price_change (update_price_change b [⟨p, 0, "buy"⟩])
        [⟨p, s, "buy"⟩]).buys, |o.price - p| < tol ∧ o.size = s) := by
  have hsell : ∀ (b' : BookMessage) (z : ℚ),
      (update_price_change b' [⟨p, z, "sell"⟩]).sells = upsert b'.sells p z := by
    intro b' z
    simp [update_price_change, applyChange]
  have hbuy : ∀ (b' : BookMessage) (z : ℚ),
      (update_price_change b' [⟨p, z, "buy"⟩]).buys = upsert b'.buys p z := by
    intro b' z
    simp [update_price_change, applyChange]
  refine ⟨?_, ?_, ?_, ?_⟩
  · rw [hsell]
    exact upsert_mem_written b.sells p 0
  · rw [hsell]
    exact upsert_mem_written _ p s
  · rw [hbuy]
    exact upsert_mem_written b.buys p 0
  · rw [hbuy]
    exact upsert_mem_written _ p s

/-- Witness for the amended C3 at the empty book, `p = 1/2`, `s = 5`. -/
theorem size_zero_then_restore_amended_witness :
    ((5 : ℚ) ≠ 0) ∧
    ((∃ o ∈ (update_price_change ⟨[], []⟩ [⟨1/2, 0, "sell"⟩]).sells,
        |o.price - 1/2| < tol ∧ o.size = 0) ∧
     (∃ o ∈ (update_price_change (update_price_change ⟨[], []⟩ [⟨1/2, 0, "sell"⟩])
        [⟨1/2, 5, "sell"⟩]).sells, |o.price - 1/2| < tol ∧ o.size = 5) ∧
     (∃ o ∈ (update_price_change ⟨[], []⟩ [⟨1/2, 0, "buy"⟩]).buys,
        |o.price - 1/2| < tol ∧ o.size = 0) ∧
     (∃ o ∈ (update_price_change (update_price_change ⟨[], []⟩ [⟨1/2, 0, "buy"⟩])
        [⟨1/2, 5, "buy"⟩]).buys, |o.price - 1/2| < tol ∧ o.size = 5)) :=
  ⟨by norm_num, size_zero_then_restore_amended ⟨[], []⟩ (1/2) 5 (by norm_num)⟩

/-- The book used to refute C4: both sides hold a zero-size level at the
price extreme. -/
def bookC4 : BookMessage := ⟨[⟨2/5, 0⟩, ⟨3/10, 4⟩], [⟨1/2, 0⟩, ⟨3/5, 10⟩]⟩

/-- C4 counterexample: on a sell side `[(0.5, 0), (0.6, 10)]` the best-ask
read returns price `0.5` — carried by a size-0 level — while the minimum
price among positive-size ask levels is `0.6`; dually for the bid side.
Zero-size levels do determine the returned best price. -/
theorem best_ask_positive_size_counterexample :
    extract_best_sell bookC4 = some (1/2, 0) ∧
    minPositiveAskPriceSpec bookC4 = some (3/5) ∧
    ((1 : ℚ)/2 ≠ 3/5) ∧
    extract_best_buy bookC4 = some (2/5, 0) ∧
    maxPositiveBidPriceSpec bookC4 = some (3/10) ∧
    ((2 : ℚ)/5 ≠ 3/10) := by
  refine ⟨?_, ?_, by norm_num, ?_, ?_, by norm_num⟩
  · norm_num [extract_best_sell, minByPrice, minStep, bookC4]
  · norm_num [minPositiveAskPriceSpec, minByPrice, minStep, bookC4, List.filter]
  · norm_num [extract_best_buy, maxByPrice, maxStep, bookC4]
  · norm_num [maxPositiveBidPriceSpec, maxByPrice, maxStep, bookC4, List.filter]

/-- C4 amended: the best-ask read returns the price (and size) of a
minimum-price level among ALL ask levels — zero-size levels included, so
they can determine the result — and the best-bid read a maximum-price
level among all bid levels.  There is no positive-size filter. -/
theorem best_level_all_sizes_amended (b : BookMessage) :
    (b.sells ≠ [] → ∃ o ∈ b.sells, extract_best_sell b = some (o.price, o.size) ∧
        ∀ m ∈ b.sells, o.price ≤ m.price) ∧
    (b.buys ≠ [] → ∃ o ∈ b.buys, extract_best_buy b = some (o.price, o.size) ∧
        ∀ m ∈ b.buys, m.price ≤ o.price) := by
  constructor
  · intro h
    obtain ⟨c, hmem, hmin, hall⟩ := minByPrice_spec b.sells h
    exact ⟨c, hmem, by simp [extract_best_sell, hmin], hall⟩
  · intro h
    obtain ⟨c, hmem, hmax, hall⟩ := maxByPrice_spec b.buys h
    exact ⟨c, hmem, by simp [extract_best_buy, hmax], hall⟩

/-- Witness for the amended C4 at the concrete book `bookC4`. -/
theorem best_level_all_sizes_amended_witness :
    (∃ o ∈ bookC4.sells, extract_best_sell bookC4 = some (o.price, o.size) ∧
        ∀ m ∈ bookC4.sells, o.price ≤ m.price) ∧
    (∃ o ∈ bookC4.buys, extract_best_buy bookC4 = some (o.price, o.size) ∧
        ∀ m ∈ bookC4.buys, m.price ≤ o.price) :=
  ⟨(best_level_all_sizes_amended bookC4).1 (by simp [bookC4]),
   (best_level_all_sizes_amended bookC4).2 (by simp [bookC4])⟩

/-- The empty book and the single size-0 sell delta refuting C2. -/
def emptyBook : BookMessage := ⟨[], []⟩

/-- C2 counterexample: from the empty book, the single delta
`(price 0.5, size 0, sell)` denotes the empty final level set (its only
price was last written with size 0), so the freshly built book has no best
ask; but applying the delta leaves a `(0.5, 0)` level and the best-ask
read returns `0.5`.  Applying the deltas and rebuilding from the denoted
level set disagree. -/
theorem price_change_convergence_counterexample :
    extract_best_sell (update_price_change emptyBook [⟨1/2, 0, "sell"⟩]) = some (1/2, 0) ∧
    extract_best_sell (finalLevelSetSpec emptyBook [⟨1/2, 0, "sell"⟩]) = none ∧
    (some ((1 : ℚ)/2, (0 : ℚ)) ≠ (none : Option (ℚ × ℚ))) := by
  refine ⟨?_, ?_, by simp⟩
  · norm_num [extract_best_sell, minByPrice, minStep, update_price_change,
      applyChange, upsert, emptyBook]
  · norm_num [extract_best_sell, minByPrice, finalLevelSetSpec,
      applyChangesExact, applyChangeExact, upsertExact, emptyBook, List.filter]

/-- C2 amended: provided, per side, that the delta prices and the side's
pre-existing prices are pairwise either equal or at least `0.0001` apart,
applying a `price_change` delta sequence yields the same best bid and best
ask as building a fresh book from the final level set in which each price
carries its last written size with zero-size prices RETAINED (the code
never removes a level, and zero-size levels take part in best-price
selection). -/
theorem price_change_convergence_amended (b : BookMessage) (changes : List PriceChange)
    (h1s : ∀ o ∈ b.sells, ∀ c ∈ changes, c.side = "sell" → Sep o.price c.price)
    (h2s : ∀ c ∈ changes, ∀ c' ∈ changes, c.side = "sell" → c'.side = "sell" →
      Sep c.price c'.price)
    (h1b : ∀ o ∈ b.buys, ∀ c ∈ changes, c.side = "buy" → Sep o.price c.price)
    (h2b : ∀ c ∈ changes, ∀ c' ∈ changes, c.side = "buy" → c'.side = "buy" →
      Sep c.price c'.price) :
    extract_best_sell (update_price_change b changes) =
      extract_best_sell (mkBookMessage
        (sideToLevels (applyChangesExact b changes).buys)
        (sideToLevels (applyChangesExact b changes).sells)) ∧
    extract_best_buy (update_price_change b changes) =
      extract_best_buy (mkBookMessage
        (sideToLevels (applyChangesExact b changes).buys)
        (sideToLevels (applyChangesExact b changes).sells)) := by
  rw [update_price_change_eq_exact changes b h1s h2s h1b h2b,
    mkBookMessage_sideToLevels (applyChangesExact b changes)]
  exact ⟨rfl, rfl⟩

/-- Witness for the amended C2: empty initial book, one sell delta then a
second sell delta at the same price (prices equal, hence separated). -/
theorem price_change_convergence_amended_witness :
    ((∀ o ∈ (emptyBook).sells, ∀ c ∈ [(⟨1/2, 5, "sell"⟩ : PriceChange), ⟨1/2, 0, "sell"⟩],
        c.side = "sell" → Sep o.price c.price) ∧
     (∀ c ∈ [(⟨1/2, 5, "sell"⟩ : PriceChange), ⟨1/2, 0, "sell"⟩],
        ∀ c' ∈ [(⟨1/2, 5, "sell"⟩ : PriceChange), ⟨1/2, 0, "sell"⟩],
        c.side = "sell" → c'.side = "sell" → Sep c.price c'.price)) ∧
    (extract_best_sell (update_price_change emptyBook
        [⟨1/2, 5, "sell"⟩, ⟨1/2, 0, "sell"⟩]) =
      extract_best_sell (mkBookMessage
        (sideToLevels (applyChangesExact emptyBook
          [⟨1/2, 5, "sell"⟩, ⟨1/2, 0, "sell"⟩]).buys)
        (sideToLevels (applyChangesExact emptyBook
          [⟨1/2, 5, "sell"⟩, ⟨1/2, 0, "sell"⟩]).sells)) ∧
     extract_best_buy (update_price_change emptyBook
        [⟨1/2, 5, "sell"⟩, ⟨1/2, 0, "sell"⟩]) =
      extract_best_buy (mkBookMessage
        (sideToLevels (applyChangesExact emptyBook
          [⟨1/2, 5, "sell"⟩, ⟨1/2, 0, "sell"⟩]).buys)
        (sideToLevels (applyChangesExact emptyBook
          [⟨1/2, 5, "sell"⟩, ⟨1/2, 0, "sell"⟩]).sells))) :=
  ⟨⟨by simp [emptyBook], by
      intro c hc c' hc' _ _
      rcases List.mem_cons.mp hc with rfl | hc <;>
        rcases List.mem_cons.mp hc' with rfl | hc' <;>
        simp_all [Sep]⟩,
   price_change_convergence_amended emptyBook
     [⟨1/2, 5, "sell"⟩, ⟨1/2, 0, "sell"⟩]
     (by simp [emptyBook])
     (by
       intro c hc c' hc' _ _
       rcases List.mem_cons.mp hc with rfl | hc <;>
         rcases List.mem_cons.mp hc' with rfl | hc' <;>
         simp_all [Sep])
     (by simp [emptyBook])
     (by
       intro c hc c' hc' hside _
       rcases List.mem_cons.mp hc with rfl | hc <;> simp_all)⟩

/-- C6 counterexample: a `book` event whose sell array carries the
duplicate prices `(0.5, 5), (0.5, 7)` produces a side with BOTH levels —
two levels at price `0.5` — not the de-duplicated `[(0.5, 7)]` the claim
describes. -/
theorem book_event_dedup_counterexample :
    (mkBookMessage [] [(1/2, 5), (1/2, 7)]).sells = [⟨1/2, 5⟩, ⟨1/2, 7⟩] ∧
    dedupByPriceLastWins [(1/2, 5), (1/2, 7)] = [⟨1/2, 7⟩] ∧
    (mkBookMessage [] [(1/2, 5), (1/2, 7)]).sells ≠
      dedupByPriceLastWins [(1/2, 5), (1/2, 7)] ∧
    ((mkBookMessage [] [(1/2, 5), (1/2, 7)]).sells.countP
      (fun o => decide (o.price = 1/2))) = 2 := by
  have h1 : (mkBookMessage [] [(1/2, 5), (1/2, 7)]).sells = [⟨1/2, 5⟩, ⟨1/2, 7⟩] := by
    norm_num [mkBookMessage, parse_order_summaries]
  have h2 : dedupByPriceLastWins [(1/2, 5), (1/2, 7)] = [⟨1/2, 7⟩] := by
    norm_num [dedupByPriceLastWins, upsertExact]
  refine ⟨h1, h2, ?_, ?_⟩
  · rw [h1, h2]
    simp
  · norm_num [mkBookMessage, parse_order_summaries, List.countP, List.countP.go]

/-- C6 amended: a `book` event replaces the named instrument's state
wholesale with a fresh book whose sides are built verbatim from the
supplied arrays — one level per array element in order, duplicate prices
kept as distinct levels, NOT de-duplicated — independent of any prior
state, and leaves every other instrument untouched. -/
theorem book_event_wholesale_replace_amended (store : BookStore) (aid : String)
    (buys sells : List (ℚ × ℚ)) :
    applyBookEvent store aid buys sells aid = some (mkBookMessage buys sells) ∧
    (mkBookMessage buys sells).buys = buys.map (fun it => ⟨it.1, it.2⟩) ∧
    (mkBookMessage buys sells).sells = sells.map (fun it => ⟨it.1, it.2⟩) ∧
    sideToLevels (mkBookMessage buys sells).buys = buys ∧
    sideToLevels (mkBookMessage buys sells).sells = sells ∧
    (∀ k, k ≠ aid → applyBookEvent store aid buys sells k = store k) := by
  refine ⟨by simp [applyBookEvent], rfl, rfl, ?_, ?_, ?_⟩
  · exact sideToLevels_parse buys
  · exact sideToLevels_parse sells
  · intro k hk
    simp [applyBookEvent, hk]

/-- Witness for the amended C6: concrete empty store, instrument "A",
arrays with a duplicate price, and the untouched key "B". -/
theorem book_event_wholesale_replace_amended_witness :
    applyBookEvent (fun _ => none) "A" [(1/2, 5)] [(3/5, 7), (3/5, 9)] "A" =
      some (mkBookMessage [(1/2, 5)] [(3/5, 7), (3/5, 9)]) ∧
    sideToLevels (mkBookMessage [(1/2, 5)] [(3/5, 7), (3/5, 9)]).sells =
      [(3/5, 7), (3/5, 9)] ∧
    ("B" ≠ "A") ∧
    applyBookEvent (fun _ => none) "A" [(1/2, 5)] [(3/5, 7), (3/5, 9)] "B" =
      (fun (_ : String) => (none : Option BookMessage)) "B" := by
  obtain ⟨h1, _, _, _, h5, h6⟩ :=
    book_event_wholesale_replace_amended (fun _ => none) "A" [(1/2, 5)] [(3/5, 7), (3/5, 9)]
  exact ⟨h1, h5, by simp, h6 "B" (by simp)⟩

/-- C5: a store entry with no best ask recorded, or whose best-ask price
is at most its tick size, contributes nothing to the candidate list, the
aggregate sum, or the uniform size, leaves the cycle's emitted decision
unchanged, and — when its token id names no other entry — appears in no
order intent of any decision emitted that cycle. -/
theorem nonqualifying_instrument_excluded (pre post : ScanStore) (tid : String)
    (d : TokenData)
    (hd : d.best_sell_price = none ∨ d.best_sell_size = none ∨
      (∃ p, d.best_sell_price = some p ∧ p ≤ d.new_tick_size)) :
    scanCandidates (pre ++ (tid, d) :: post) = scanCandidates (pre ++ post) ∧
    total_price (pre ++ (tid, d) :: post) = total_price (pre ++ post) ∧
    optimal_size (pre ++ (tid, d) :: post) = optimal_size (pre ++ post) ∧
    runCycle (pre ++ (tid, d) :: post) = runCycle (pre ++ post) ∧
    (tid ∉ (pre ++ post).map Prod.fst →
      ∀ dec, runCycle (pre ++ (tid, d) :: post) = some dec →
        ∀ o ∈ dec.orders, o.token_id ≠ tid) := by
  have hguard : scanGuard d = none := by
    rcases hd with h | h | ⟨p, hp, hle⟩
    · cases hsz : d.best_sell_size <;> simp [scanGuard, h, hsz]
    · cases hpr : d.best_sell_price <;> simp [scanGuard, h, hpr]
    · cases hsz : d.best_sell_size <;> simp [scanGuard, hp, hsz, hle]
  have hscan : scanCandidates (pre ++ (tid, d) :: post) = scanCandidates (pre ++ post) :=
    scanCandidates_skip pre post (tid, d) hguard
  have htotal : total_price (pre ++ (tid, d) :: post) = total_price (pre ++ post) := by
    simp [total_price, hscan]
  have hopt : optimal_size (pre ++ (tid, d) :: post) = optimal_size (pre ++ post) := by
    simp [optimal_size, hscan]
  have hcycle : runCycle (pre ++ (tid, d) :: post) = runCycle (pre ++ post) := by
    simp [runCycle, hscan, htotal, hopt]
  refine ⟨hscan, htotal, hopt, hcycle, ?_⟩
  intro hnot dec hdec o ho
  rw [hcycle] at hdec
  have := runCycle_token_mem (pre ++ post) dec hdec o ho
  intro heq
  rw [heq] at this
  exact hnot this

/-- The qualifying prefix entry used by the C5 witness. -/
def storeC5pre : ScanStore := [("A", ⟨some (2/5), some 100, 1/1000⟩)]

/-- The non-qualifying token of the C5 witness: no recorded best ask. -/
def tokenC5 : TokenData := ⟨none, some 5, 1/1000⟩

/-- Witness for C5: instrument "X" with no recorded ask, placed after a
single qualifying entry "A". -/
theorem nonqualifying_instrument_excluded_witness :
    (tokenC5.best_sell_price = none ∨ tokenC5.best_sell_size = none ∨
      (∃ p, tokenC5.best_sell_price = some p ∧ p ≤ tokenC5.new_tick_size)) ∧
    (scanCandidates (storeC5pre ++ ("X", tokenC5) :: []) =
      scanCandidates (storeC5pre ++ []) ∧
     total_price (storeC5pre ++ ("X", tokenC5) :: []) =
      total_price (storeC5pre ++ []) ∧
     optimal_size (storeC5pre ++ ("X", tokenC5) :: []) =
      optimal_size (storeC5pre ++ []) ∧
     runCycle (storeC5pre ++ ("X", tokenC5) :: []) = runCycle (storeC5pre ++ []) ∧
     ("X" ∉ (storeC5pre ++ []).map Prod.fst →
       ∀ dec, runCycle (storeC5pre ++ ("X", tokenC5) :: []) = some dec →
         ∀ o ∈ dec.orders, o.token_id ≠ "X")) :=
  ⟨Or.inl rfl,
   nonqualifying_instrument_excluded storeC5pre [] "X" tokenC5 (Or.inl rfl)⟩

/-- C7: after any session, the decision log is exactly the sequence of
decisions of the triggering cycles in emission order, tagged with
pairwise-distinct freshly generated ids; it has exactly as many records as
there were triggering cycles, and running further cycles only ever appends
to it — no prior record is rewritten or removed. -/
theorem decision_log_append_only (cycles more : List ScanStore) :
    (runSession cycles).log =
      (List.range (cycles.filterMap runCycle).length).zip (cycles.filterMap runCycle) ∧
    (runSession cycles).log.length =
      cycles.countP (fun s => (runCycle s).isSome) ∧
    ((runSession cycles).log.map Prod.fst).Nodup ∧
    ∃ tail, (runSession (cycles ++ more)).log = (runSession cycles).log ++ tail := by
  obtain ⟨hlog, _⟩ := foldl_stepSession cycles ⟨[], 0⟩
  have hlog' : (runSession cycles).log =
      (List.range (cycles.filterMap runCycle).length).zip (cycles.filterMap runCycle) := by
    rw [runSession, hlog, List.range_eq_range']
    simp
  refine ⟨hlog', ?_, ?_, ?_⟩
  · rw [hlog', ← filterMap_length_countP]
    simp
  · rw [hlog', List.map_fst_zip]
    · exact List.nodup_range _
    · simp
  · have hsplit : runSession (cycles ++ more) =
        more.foldl stepSession (runSession cycles) := by
      rw [runSession, runSession, List.foldl_append]
    obtain ⟨hlog2, _⟩ := foldl_stepSession more (runSession cycles)
    exact ⟨_, by rw [hsplit, hlog2]⟩

/-- C8: a failed handshake is re-raised to the caller of `connect` — a
transport `ConnectionError` surfaces as that same error, a hard failure —
whereas an error during the receive loop is handled inside the loop: the
loop hands over exactly the frames received before the error, then
terminates normally, and no exception reaches the caller on any stream. -/
theorem connect_listen_error_propagation :
    (∀ m : String, connect (Except.error (WSErr.connectionError m)) =
      Except.error (WSErr.connectionError m)) ∧
    (∀ e : WSErr, connect (Except.error e) = Except.error e) ∧
    (∀ stream, ∃ frames, listenLoop stream = Except.ok frames) ∧
    (∀ (good : List Frame) (e : WSErr) (rest : List (Except WSErr Frame)),
      listenLoop (good.map Except.ok ++ Except.error e :: rest) = Except.ok good) :=
  ⟨fun _ => rfl, fun _ => rfl, listenLoop_ok, listenLoop_stops_at_error⟩

/-- C9: on a nonempty level array, `extract_best_level` returns the
`(price, size)` of a level `o` that no level beats — so for asks `o`'s
price is minimal and, among levels sharing that price, its size maximal
(dually for bids) — and that strictly beats every level placed before it,
so on a full price-and-size tie the earlier level is the one kept. -/
theorem extract_best_level_tie_break (levels : List OrderSummary) (ia : Bool)
    (hne : levels ≠ []) :
    ∃ o pre post, levels = pre ++ o :: post ∧
      extract_best_level levels ia = some (o.price, o.size) ∧
      (∀ m ∈ levels, ¬ beats ia m o) ∧
      (∀ m ∈ pre, beats ia o m) := by
  match levels, hne with
  | x :: rest, _ =>
    have hfold : (x :: rest).foldl (bestStep ia) none = rest.foldl (bestStep ia) (some x) := by
      simp [List.foldl_cons, bestStep]
    obtain ⟨c, hc, hcase⟩ := bestFold_spec ia rest x
    rcases hcase with ⟨rfl, hall⟩ | ⟨pre', post', hsplit, hcx, hpre, hpost⟩
    · refine ⟨c, [], rest, by simp, ?_, ?_, by simp⟩
      · simp [extract_best_level, hfold, hc]
      · intro m hm
        rcases List.mem_cons.mp hm with rfl | hm
        · exact beats_irrefl ia m
        · exact hall m hm
    · refine ⟨c, x :: pre', post', by simp [hsplit], ?_, ?_, ?_⟩
      · simp [extract_best_level, hfold, hc]
      · intro m hm
        rcases List.mem_cons.mp hm with rfl | hm
        · exact beats_asymm hcx
        · rw [hsplit] at hm
          rcases List.mem_append.mp hm with hm | hm
          · exact beats_asymm (hpre m hm)
          · rcases List.mem_cons.mp hm with rfl | hm
            · exact beats_irrefl ia m
            · exact hpost m hm
      · intro m hm
        rcases List.mem_cons.mp hm with rfl | hm
        · exact hcx
        · exact hpre m hm

/-- Witness for C9 at the ask array `[(0.5, 5), (0.5, 7), (0.6, 9)]`,
where the equal lowest price `0.5` is held by two levels. -/
theorem extract_best_level_tie_break_witness :
    ∃ o pre post,
      ([⟨1/2, 5⟩, ⟨1/2, 7⟩, ⟨3/5, 9⟩] : List OrderSummary) = pre ++ o :: post ∧
      extract_best_level [⟨1/2, 5⟩, ⟨1/2, 7⟩, ⟨3/5, 9⟩] true = some (o.price, o.size) ∧
      (∀ m ∈ ([⟨1/2, 5⟩, ⟨1/2, 7⟩, ⟨3/5, 9⟩] : List OrderSummary), ¬ beats true m o) ∧
      (∀ m ∈ pre, beats true o m) :=
  extract_best_level_tie_break [⟨1/2, 5⟩, ⟨1/2, 7⟩, ⟨3/5, 9⟩] true (by simp)

/-- C10: a `price_change` delta matches levels by tolerance, not exact
equality — when no level on the side lies within `0.0001` of the delta
price a fresh level is appended, and otherwise the FIRST level within
`0.0001` has its size overwritten in place (its stored price kept), so two
distinct prices closer than `0.0001` are treated as the same level. -/
theorem upsert_tolerance_matching (orders pre post : List OrderSummary)
    (o : OrderSummary) (p s : ℚ) :
    ((∀ m ∈ orders, ¬ |m.price - p| < tol) → upsert orders p s = orders ++ [⟨p, s⟩]) ∧
    ((∀ m ∈ pre, ¬ |m.price - p| < tol) → |o.price - p| < tol →
      upsert (pre ++ o :: post) p s = pre ++ ⟨o.price, s⟩ :: post) :=
  ⟨upsert_of_no_match orders p s, upsert_of_first_match pre post o p s⟩

/-- Witness for C10: the delta price `0.5` appends to a side holding only
`1/3`, and overwrites the distinct-but-closer-than-`0.0001` price
`0.50001` in place. -/
theorem upsert_tolerance_matching_witness :
    ((∀ m ∈ ([⟨1/3, 2⟩] : List OrderSummary), ¬ |m.price - 1/2| < tol) ∧
      upsert [⟨1/3, 2⟩] (1/2) 9 = [⟨1/3, 2⟩] ++ [⟨1/2, 9⟩]) ∧
    ((∀ m ∈ ([⟨1/3, 2⟩] : List OrderSummary), ¬ |m.price - 1/2| < tol) ∧
      |(⟨50001/100000, 4⟩ : OrderSummary).price - 1/2| < tol ∧
      upsert ([⟨1/3, 2⟩] ++ ⟨50001/100000, 4⟩ :: [⟨2/3, 8⟩]) (1/2) 9 =
        [⟨1/3, 2⟩] ++ ⟨50001/100000, 9⟩ :: [⟨2/3, 8⟩]) := by
  have hno : ∀ m ∈ ([⟨1/3, 2⟩] : List OrderSummary), ¬ |m.price - 1/2| < tol := by
    intro m hm
    rcases List.mem_singleton.mp hm with rfl
    norm_num [tol, abs_lt]
  have hin : |(⟨50001/100000, 4⟩ : OrderSummary).price - 1/2| < tol := by
    norm_num [tol, abs_lt]
  exact ⟨⟨hno, (upsert_tolerance_matching [⟨1/3, 2⟩] [] [] ⟨0, 0⟩ (1/2) 9).1 hno⟩,
    ⟨hno, hin,
      (upsert_tolerance_matching [] [⟨1/3, 2⟩] [⟨2/3, 8⟩] ⟨50001/100000, 4⟩ (1/2) 9).2 hno hin⟩⟩

end Polytrading
